import Mathlib

/-!
Verification of the StarRocks Variant query core: the path-expression
parser (`be/src/exprs/variant_path_parser.cpp`), the seek algorithm, the
owned serialized form (`be/src/util/variant_value.h`), the value caster
(`be/src/util/variant_converter.cpp`) and the per-batch query loop
(`be/src/exprs/variant_functions.cpp`), shallowly embedded as executable
Lean functions.  Byte buffers are `List Nat` (each entry a byte value),
strings from the C++ side are `List Char`, and the parser's state (the
immutable input plus the C++ cursor `_pos`) is threaded explicitly as
the unread suffix together with the cursor: every parsing function
takes a state and returns its result together with the state after.
-/

deriving instance DecidableEq for Except

namespace StarrocksVariant

/-- Little-endian read of `w` bytes of `bytes` starting at `off`
(missing bytes read as 0). -/
def readLE (bytes : List Nat) (off : Nat) : Nat → Nat
  | 0 => 0
  | w + 1 => bytes.getD off 0 + 256 * readLE bytes (off + 1) w

/-- The 4 little-endian bytes of `n` (as written by a `uint32_t` store). -/
def toLE32 (n : Nat) : List Nat :=
  [n % 256, n / 256 % 256, n / 65536 % 256, n / 16777216 % 256]

namespace VariantPath

/-- Path segments (`variant_path_parser.h`): the C++ virtual hierarchy
`ObjectExtraction` / `ArrayExtraction` is a closed two-variant union.
`ArrayExtraction` stores a C++ `int`, hence `Int` here. -/
inductive Segment where
  | objectExtraction (key : List Char)
  | arrayExtraction (index : Int)
deriving DecidableEq, Repr

/-- Parse errors of `variant_path_parser.cpp`, one constructor per
`Status::VariantError` site, each carrying the `_pos` value that the
C++ code formats into the message (the root-anchor failure is a plain
`Status::InvalidArgument` with no position). -/
inductive ParseErr where
  | expectedLBracket (pos : Nat)
  | expectedIndexAfterLBracket (pos : Nat)
  | expectedRBracketAfterIndex (idx : List Char) (pos : Nat)
  | invalidArrayIndex (idx : List Char) (pos : Nat)
  | expectedQuote (pos : Nat)
  | expectedClosingQuote (q : Char) (pos : Nat)
  | expectedRBracketAfterKey (key : List Char) (pos : Nat)
  | expectedDot (pos : Nat)
  | expectedKeyAfterDot (pos : Nat)
  | unexpectedEnd (pos : Nat)
  | failedSegment (pos : Nat)
  | unexpectedChar (c : Char) (pos : Nat)
  | pathMustStartWithDollar
deriving DecidableEq, Repr

/-- The scanner state of `VariantPathParser`: the C++ object holds the
immutable input and the cursor `_pos`; the embedding carries the unread
suffix (the input from the cursor on) together with the cursor, so
consuming a character is structural.  Saving and restoring `_pos` over
the immutable input is saving and restoring this state. -/
structure PState where
  rest : List Char
  pos : Nat
deriving DecidableEq, Repr

/-- C++ `VariantPathParser::is_at_end`: `_pos >= _input.get_size()`. -/
def isAtEnd (s : PState) : Bool :=
  s.rest.isEmpty

/-- C++ `VariantPathParser::peek`: the character at the cursor, `'\0'`
at the end of the input. -/
def peek (s : PState) : Char :=
  s.rest.headD '\x00'

/-- C++ `VariantPathParser::match`: consume `expected` if it is next;
the pair is (whether it matched, the state after). -/
def matchChar (s : PState) (expected : Char) : Bool × PState :=
  match s with
  | ⟨[], pos⟩ => (false, ⟨[], pos⟩)
  | ⟨c :: t, pos⟩ => if c = expected then (true, ⟨t, pos + 1⟩) else (false, ⟨c :: t, pos⟩)

/-- C++ `VariantPathParser::is_digit`: `c >= '0' && c <= '9'`. -/
def isDigit (c : Char) : Bool :=
  decide (48 ≤ c.toNat) && decide (c.toNat ≤ 57)

/-- C++ `VariantPathParser::is_valid_key_char`:
`std::isalnum(c) || c == '_'` (ASCII alphanumerics). -/
def isValidKeyChar (c : Char) : Bool :=
  c.isAlphanum || c = '_'

/-- The loop of C++ `VariantPathParser::parse_number`, as a structural
scan of the unread suffix. -/
def parseNumberAux : List Char → Nat → List Char × PState
  | [], pos => ([], ⟨[], pos⟩)
  | c :: t, pos =>
    if isDigit c then
      let r := parseNumberAux t (pos + 1)
      (c :: r.1, r.2)
    else ([], ⟨c :: t, pos⟩)

/-- C++ `VariantPathParser::parse_number`: the run of digits at the
cursor, with the state after it. -/
def parseNumber (s : PState) : List Char × PState :=
  parseNumberAux s.rest s.pos

/-- The loop of C++ `VariantPathParser::parse_unquoted_key`, as a
structural scan of the unread suffix. -/
def parseUnquotedKeyAux : List Char → Nat → List Char × PState
  | [], pos => ([], ⟨[], pos⟩)
  | c :: t, pos =>
    if isValidKeyChar c then
      let r := parseUnquotedKeyAux t (pos + 1)
      (c :: r.1, r.2)
    else ([], ⟨c :: t, pos⟩)

/-- C++ `VariantPathParser::parse_unquoted_key`: the run of key
characters (alphanumeric or underscore) at the cursor. -/
def parseUnquotedKey (s : PState) : List Char × PState :=
  parseUnquotedKeyAux s.rest s.pos

/-- The `switch` of `parse_quoted_string`: `n`, `t`, `r` map to their
control characters, every other escaped character (quote, backslash and
all unrecognized escapes) passes through unchanged. -/
def escapeChar (c : Char) : Char :=
  if c = 'n' then '\n' else if c = 't' then '\t' else if c = 'r' then '\r' else c

/-- The loop of C++ `VariantPathParser::parse_quoted_string`, as a
structural scan of the unread suffix. -/
def parseQuotedStringAux (quote : Char) : List Char → Nat → List Char × PState
  | [], pos => ([], ⟨[], pos⟩)
  | c :: t, pos =>
    if c = quote then ([], ⟨c :: t, pos⟩)
    else
      match t with
      | e :: t2 =>
        if c = '\\' then
          let r := parseQuotedStringAux quote t2 (pos + 2)
          (escapeChar e :: r.1, r.2)
        else
          let r := parseQuotedStringAux quote (e :: t2) (pos + 1)
          (c :: r.1, r.2)
      | [] =>
        let r := parseQuotedStringAux quote [] (pos + 1)
        (c :: r.1, r.2)

/-- C++ `VariantPathParser::parse_quoted_string`: scan up to the
closing `quote`, handling backslash escapes (a backslash followed by a
character consumes both; a backslash as the very last character is
taken literally); the closing quote is not consumed. -/
def parseQuotedString (quote : Char) (s : PState) : List Char × PState :=
  parseQuotedStringAux quote s.rest s.pos

/-- Numeric value of a digit string, as `std::stoi` computes it for an
all-digit argument. -/
def digitsToNat (ds : List Char) : Nat :=
  ds.foldl (fun a c => a * 10 + (c.toNat - 48)) 0

/-- C++ `VariantPathParser::parse_array_index`: `'['`, one or more
digits, `']'`.  `std::stoi` throws `std::out_of_range` (caught and
turned into the invalid-index error) when the digits exceed `INT_MAX` =
2147483647. -/
def parseArrayIndex (s : PState) : Except ParseErr (Segment × PState) :=
  let m1 := matchChar s '['
  if m1.1 = false then .error (.expectedLBracket m1.2.pos)
  else
    let pn := parseNumber m1.2
    if pn.1 = [] then .error (.expectedIndexAfterLBracket pn.2.pos)
    else
      let m2 := matchChar pn.2 ']'
      if m2.1 = false then .error (.expectedRBracketAfterIndex pn.1 pn.2.pos)
      else if 2147483647 < digitsToNat pn.1 then .error (.invalidArrayIndex pn.1 m2.2.pos)
      else .ok (.arrayExtraction (Int.ofNat (digitsToNat pn.1)), m2.2)

/-- C++ `VariantPathParser::parse_quoted_key`: `'['`, a quote, the
quoted characters, the same quote, `']'`.  The quote check reads
`peek`, so at the end of the input it sees `'\0'` and fails before any
consume. -/
def parseQuotedKey (s : PState) : Except ParseErr (Segment × PState) :=
  let m1 := matchChar s '['
  if m1.1 = false then .error (.expectedLBracket m1.2.pos)
  else
    let q := peek m1.2
    if q ≠ '\'' ∧ q ≠ '"' then .error (.expectedQuote m1.2.pos)
    else
      let ps := parseQuotedString q ⟨m1.2.rest.tail, m1.2.pos + 1⟩
      let m2 := matchChar ps.2 q
      if m2.1 = false then .error (.expectedClosingQuote q ps.2.pos)
      else
        let m3 := matchChar m2.2 ']'
        if m3.1 = false then .error (.expectedRBracketAfterKey ps.1 m2.2.pos)
        else .ok (.objectExtraction ps.1, m3.2)

/-- C++ `VariantPathParser::parse_object_key`: `'.'` then a nonempty
unquoted key. -/
def parseObjectKey (s : PState) : Except ParseErr (Segment × PState) :=
  let m1 := matchChar s '.'
  if m1.1 = false then .error (.expectedDot s.pos)
  else
    let pk := parseUnquotedKey m1.2
    if pk.1 = [] then .error (.expectedKeyAfterDot pk.2.pos)
    else .ok (.objectExtraction pk.1, pk.2)

/-- C++ `VariantPathParser::parse_segment`.  At a `'['` the C++ code
saves `_pos`, tries the array-index production, restores `_pos` on
failure, tries the quoted-key production, and restores `_pos` again
before reporting the combined failure; in this embedding the restore is
expressed by applying both productions to the same saved state `s`. -/
def parseSegment (s : PState) : Except ParseErr (Segment × PState) :=
  if isAtEnd s = true then .error (.unexpectedEnd s.pos)
  else if peek s = '.' then parseObjectKey s
  else if peek s = '[' then
    match parseArrayIndex s with
    | .ok r => .ok r
    | .error _ =>
      match parseQuotedKey s with
      | .ok r => .ok r
      | .error _ => .error (.failedSegment s.pos)
  else .error (.unexpectedChar (peek s) s.pos)

/-- The unread suffix never grows through `parseNumberAux`. -/
theorem parseNumberAux_rest_le (t : List Char) (pos : Nat) :
    (parseNumberAux t pos).2.rest.length ≤ t.length := by
  induction t generalizing pos with
  | nil => simp [parseNumberAux]
  | cons c t ih =>
    simp only [parseNumberAux]
    split
    · have := ih (pos + 1)
      simp only [List.length_cons]
      omega
    · simp

/-- The unread suffix never grows through `parseNumber`. -/
theorem parseNumber_rest_le (s : PState) :
    (parseNumber s).2.rest.length ≤ s.rest.length :=
  parseNumberAux_rest_le s.rest s.pos

/-- The unread suffix never grows through `parseUnquotedKeyAux`. -/
theorem parseUnquotedKeyAux_rest_le (t : List Char) (pos : Nat) :
    (parseUnquotedKeyAux t pos).2.rest.length ≤ t.length := by
  induction t generalizing pos with
  | nil => simp [parseUnquotedKeyAux]
  | cons c t ih =>
    simp only [parseUnquotedKeyAux]
    split
    · have := ih (pos + 1)
      simp only [List.length_cons]
      omega
    · simp

/-- The unread suffix never grows through `parseUnquotedKey`. -/
theorem parseUnquotedKey_rest_le (s : PState) :
    (parseUnquotedKey s).2.rest.length ≤ s.rest.length :=
  parseUnquotedKeyAux_rest_le s.rest s.pos

/-- The unread suffix never grows through `parseQuotedStringAux`. -/
theorem parseQuotedStringAux_rest_le (quote : Char) :
    ∀ (t : List Char) (pos : Nat),
      (parseQuotedStringAux quote t pos).2.rest.length ≤ t.length
  | [], pos => by simp [parseQuotedStringAux]
  | [c], pos => by
    have ih := parseQuotedStringAux_rest_le quote [] (pos + 1)
    simp only [parseQuotedStringAux]
    split
    · simp
    · simp only [List.length_cons]
      simp at ih
      omega
  | c :: e :: t2, pos => by
    have ih1 := parseQuotedStringAux_rest_le quote t2 (pos + 2)
    have ih2 := parseQuotedStringAux_rest_le quote (e :: t2) (pos + 1)
    simp only [parseQuotedStringAux]
    split
    · simp
    · split
      · simp only [List.length_cons]
        simp at ih1
        omega
      · simp only [List.length_cons]
        simp at ih2
        omega

/-- The unread suffix never grows through `parseQuotedString`. -/
theorem parseQuotedString_rest_le (quote : Char) (s : PState) :
    (parseQuotedString quote s).2.rest.length ≤ s.rest.length :=
  parseQuotedStringAux_rest_le quote s.rest s.pos

/-- `matchChar` consumes exactly one character when it matches. -/
theorem matchChar_true_rest {s : PState} {c : Char}
    (h : (matchChar s c).1 = true) :
    (matchChar s c).2.rest.length + 1 = s.rest.length := by
  match s with
  | ⟨[], pos⟩ => simp [matchChar] at h
  | ⟨a :: t, pos⟩ =>
    simp only [matchChar] at h ⊢
    split at h
    · next heq => simp [heq]
    · simp at h

/-- A successful `parseArrayIndex` strictly shrinks the unread suffix. -/
theorem parseArrayIndex_progress {s s' : PState} {seg : Segment}
    (h : parseArrayIndex s = .ok (seg, s')) : s'.rest.length < s.rest.length := by
  simp only [parseArrayIndex] at h
  split at h
  · exact absurd h (by simp)
  · next hm1 =>
    split at h
    · exact absurd h (by simp)
    · split at h
      · exact absurd h (by simp)
      · next hm2 =>
        split at h
        · exact absurd h (by simp)
        · have h1 := matchChar_true_rest (c := '[') (s := s) (by simpa using hm1)
          have h2 := parseNumber_rest_le (matchChar s '[').2
          have h3 := matchChar_true_rest (c := ']')
            (s := (parseNumber (matchChar s '[').2).2) (by simpa using hm2)
          simp only [Except.ok.injEq, Prod.mk.injEq] at h
          have hs' : s' = (matchChar (parseNumber (matchChar s '[').2).2 ']').2 := h.2.symm
          subst hs'
          omega

/-- A successful `parseQuotedKey` strictly shrinks the unread suffix. -/
theorem parseQuotedKey_progress {s s' : PState} {seg : Segment}
    (h : parseQuotedKey s = .ok (seg, s')) : s'.rest.length < s.rest.length := by
  simp only [parseQuotedKey] at h
  split at h
  · exact absurd h (by simp)
  · next hm1 =>
    split at h
    · exact absurd h (by simp)
    · split at h
      · exact absurd h (by simp)
      · next hm2 =>
        split at h
        · exact absurd h (by simp)
        · next hm3 =>
          have h1 := matchChar_true_rest (c := '[') (s := s) (by simpa using hm1)
          have h2 : (parseQuotedString (peek (matchChar s '[').2)
              ⟨(matchChar s '[').2.rest.tail, (matchChar s '[').2.pos + 1⟩).2.rest.length
              ≤ (matchChar s '[').2.rest.tail.length :=
            parseQuotedString_rest_le (peek (matchChar s '[').2)
              ⟨(matchChar s '[').2.rest.tail, (matchChar s '[').2.pos + 1⟩
          have h3 := matchChar_true_rest (c := peek (matchChar s '[').2)
            (s := (parseQuotedString (peek (matchChar s '[').2)
              ⟨(matchChar s '[').2.rest.tail, (matchChar s '[').2.pos + 1⟩).2)
            (by simpa using hm2)
          have h4 := matchChar_true_rest (c := ']')
            (s := (matchChar (parseQuotedString (peek (matchChar s '[').2)
              ⟨(matchChar s '[').2.rest.tail, (matchChar s '[').2.pos + 1⟩).2
              (peek (matchChar s '[').2)).2)
            (by simpa using hm3)
          simp only [Except.ok.injEq, Prod.mk.injEq] at h
          have htail : (matchChar s '[').2.rest.tail.length ≤ (matchChar s '[').2.rest.length := by
            simp [List.length_tail]
          have hs' : s' = (matchChar (matchChar (parseQuotedString (peek (matchChar s '[').2)
              ⟨(matchChar s '[').2.rest.tail, (matchChar s '[').2.pos + 1⟩).2
              (peek (matchChar s '[').2)).2 ']').2 := h.2.symm
          subst hs'
          omega

/-- A successful `parseObjectKey` strictly shrinks the unread suffix. -/
theorem parseObjectKey_progress {s s' : PState} {seg : Segment}
    (h : parseObjectKey s = .ok (seg, s')) : s'.rest.length < s.rest.length := by
  simp only [parseObjectKey] at h
  split at h
  · exact absurd h (by simp)
  · next hm1 =>
    split at h
    · exact absurd h (by simp)
    · have h1 := matchChar_true_rest (c := '.') (s := s) (by simpa using hm1)
      have h2 := parseUnquotedKey_rest_le (matchChar s '.').2
      simp only [Except.ok.injEq, Prod.mk.injEq] at h
      have hs' : s' = (parseUnquotedKey (matchChar s '.').2).2 := h.2.symm
      subst hs'
      omega

/-- A successful `parseSegment` strictly shrinks the unread suffix
(each production begins by consuming at least one character), which is
what makes the C++ `while` loop of `parse` terminate. -/
theorem parseSegment_progress {s s' : PState} {seg : Segment}
    (h : parseSegment s = .ok (seg, s')) : s'.rest.length < s.rest.length := by
  unfold parseSegment at h
  split at h
  · exact absurd h (by simp)
  · split at h
    · exact parseObjectKey_progress h
    · split at h
      · cases harr : parseArrayIndex s with
        | ok r =>
          rw [harr] at h
          simp only [Except.ok.injEq] at h
          obtain ⟨seg2, s2⟩ := r
          cases h
          exact parseArrayIndex_progress harr
        | error e =>
          rw [harr] at h
          cases hq : parseQuotedKey s with
          | ok r =>
            rw [hq] at h
            simp only [Except.ok.injEq] at h
            obtain ⟨seg2, s2⟩ := r
            cases h
            exact parseQuotedKey_progress hq
          | error e2 =>
            rw [hq] at h
            exact absurd h (by simp)
      · exact absurd h (by simp)

/-- The segment loop of C++ `VariantPathParser::parse`:
`while (!is_at_end()) { parse_segment; push_back }`, returning the
collected segments and the final state. -/
def parseSegments (s : PState) : Except ParseErr (List Segment × PState) :=
  if s.rest = [] then .ok ([], s)
  else
    match hseg : parseSegment s with
    | .error e => .error e
    | .ok (seg, s') =>
      match parseSegments s' with
      | .error e => .error e
      | .ok (segs, send) => .ok (seg :: segs, send)
termination_by s.rest.length
decreasing_by
  have := parseSegment_progress hseg
  omega

/-- C++ `VariantPathParser::parse`: reset the cursor to the start of
the input, require the root anchor `'$'`, then parse segments until the
end of the input. -/
def parse (input : List Char) : Except ParseErr (List Segment) :=
  if (matchChar ⟨input, 0⟩ '$').1 = false then .error .pathMustStartWithDollar
  else
    match parseSegments (matchChar ⟨input, 0⟩ '$').2 with
    | .error e => .error e
    | .ok (segs, _) => .ok segs

/-- Fuel-indexed restatement of `parseSegments`, used only to compute
the well-founded loop on concrete inputs inside kernel-checked proofs;
`parseSegments_eq_fuel` shows it agrees whenever the fuel exceeds the
unread length (which `parseSegment_progress` guarantees is consumed). -/
def parseSegmentsFuel : Nat → PState → Except ParseErr (List Segment × PState)
  | 0, s => .error (.failedSegment s.pos)
  | fuel + 1, s =>
    if s.rest = [] then .ok ([], s)
    else
      match parseSegment s with
      | .error e => .error e
      | .ok (seg, s') =>
        match parseSegmentsFuel fuel s' with
        | .error e => .error e
        | .ok (segs, send) => .ok (seg :: segs, send)

/-- With fuel exceeding the unread length, the fuel-indexed loop is the
well-founded one. -/
theorem parseSegmentsFuel_eq (fuel : Nat) (s : PState) (h : s.rest.length < fuel) :
    parseSegmentsFuel fuel s = parseSegments s := by
  induction fuel generalizing s with
  | zero => exact absurd h (Nat.not_lt_zero _)
  | succ fuel ih =>
    unfold parseSegments
    simp only [parseSegmentsFuel]
    by_cases hempty : s.rest = []
    · simp [hempty]
    · simp only [if_neg hempty]
      cases hseg : parseSegment s with
      | error e => rfl
      | ok r =>
        obtain ⟨seg, s'⟩ := r
        have hlt : s'.rest.length < fuel := by
          have := parseSegment_progress hseg
          omega
        dsimp only
        rw [ih s' hlt]

/-- Fuel-based restatement of `parse`, agreeing with it everywhere
(`parse_eq_parseFuel`); concrete parses are computed through it. -/
def parseFuel (input : List Char) : Except ParseErr (List Segment) :=
  if (matchChar ⟨input, 0⟩ '$').1 = false then .error .pathMustStartWithDollar
  else
    match parseSegmentsFuel (input.length + 1) (matchChar ⟨input, 0⟩ '$').2 with
    | .error e => .error e
    | .ok (segs, _) => .ok segs

/-- `parse` and its fuel-based restatement agree on every input. -/
theorem parse_eq_parseFuel (input : List Char) : parse input = parseFuel input := by
  unfold parse parseFuel
  by_cases hm : (matchChar ⟨input, 0⟩ '$').1 = false
  · simp [hm]
  · have hm' : (matchChar ⟨input, 0⟩ '$').1 = true := by
      cases hb : (matchChar ⟨input, 0⟩ '$').1
      · exact absurd hb hm
      · rfl
    have hrest := matchChar_true_rest (s := ⟨input, 0⟩) (c := '$') hm'
    simp only at hrest
    rw [parseSegmentsFuel_eq (input.length + 1) (matchChar ⟨input, 0⟩ '$').2
      (by omega)]
end VariantPath

/-- The owned serializable form (`src/be/src/util/variant_value.h`): a
metadata byte string and a value byte string. -/
structure VariantValue where
  metadata : List Nat
  value : List Nat
deriving DecidableEq, Repr

/-- Width in bytes of the metadata offset entries, from the header
byte's offset-size selector: `(header & 0b11000000) >> 6` (the masks
`kOffsetSizeMask` / `kOffsetSizeShift` of `variant_value.h`) plus one. -/
def metaOffsetSize (m : List Nat) : Nat :=
  m.getD 0 0 / 64 % 4 + 1

/-- Dictionary size of a metadata buffer: the offset-size-wide
little-endian integer right after the header byte. -/
def metaDictSize (m : List Nat) : Nat :=
  readLE m 1 (metaOffsetSize m)

/-- Total extent a metadata buffer declares for itself: header byte,
dictionary size, `dictionary_size + 1` offsets of the selected width,
then the key bytes, whose extent is the last offset (spec section 6
metadata layout). -/
def metaDeclaredSize (m : List Nat) : Nat :=
  1 + metaOffsetSize m * (2 + metaDictSize m)
    + readLE m (1 + metaOffsetSize m * (1 + metaDictSize m)) (metaOffsetSize m)

/-- Modelled from the spec: `VariantValue::load_metadata` (declared in
`variant_value.h`, body not in this source slice) slices the metadata
out of a combined metadata+value buffer using the metadata's own
declared extent, failing when that extent exceeds the buffer. -/
def loadMetadata (variant : List Nat) : Option (List Nat) :=
  if variant.length < metaDeclaredSize variant then none
  else some (variant.take (metaDeclaredSize variant))

/-- Spec section 3 metadata invariant: the buffer is exactly the extent
its own header declares. -/
def wellFormedMetadata (m : List Nat) : Prop :=
  m.length = metaDeclaredSize m

/-- The sorted-keys flag of the metadata header (`kSortedStrings` =
`0b10000` in `variant_value.h`). -/
def metaSortedKeys (m : List Nat) : Bool :=
  decide (m.getD 0 0 / 16 % 2 = 1)

/-- Key bytes of dictionary entry `id`: the slice of the key-bytes
region between offsets `id` and `id + 1`; none when `id` is outside
`[0, dictionary_size)`. -/
def metaKey (m : List Nat) (id : Nat) : Option (List Nat) :=
  if metaDictSize m ≤ id then none
  else
    let os := metaOffsetSize m
    let start := readLE m (1 + os * (1 + id)) os
    let stop := readLE m (1 + os * (2 + id)) os
    let base := 1 + os * (2 + metaDictSize m)
    some ((m.drop (base + start)).take (stop - start))

/-- Modelled from the spec: `VariantValue::serialize` (declared in
`variant_value.h`, body not in this source slice).  Per the
`serialize_size` comment in the header ("4 bytes for value size +
metadata size + value size") and the `Slice` constructor that reads the
form back, it writes the 4-byte little-endian combined size of metadata
and value, then the metadata bytes, then the value bytes. -/
def VariantValue.serialize (v : VariantValue) : List Nat :=
  toLE32 (v.metadata.length + v.value.length) ++ v.metadata ++ v.value

/-- The wire layout exactly as the spec's words state it: a 4-byte
little-endian METADATA length, then the metadata bytes, then the value
bytes.  Kept alongside `VariantValue.serialize` so the two readings of
the prefix can be compared. -/
def specMetadataLengthForm (v : VariantValue) : List Nat :=
  toLE32 v.metadata.length ++ v.metadata ++ v.value

/-- C++ `slice.get_size() - sizeof(uint32_t)` on `size_t`: wraps modulo
2^64 when the slice is shorter than 4 bytes. -/
def sizeSub4 (n : Nat) : Nat :=
  if 4 ≤ n then n - 4 else (n + 18446744073709551616 - 4) % 18446744073709551616

/-- The `VariantValue(const Slice&)` constructor of `variant_value.h`:
read the first 4 bytes as the combined variant size, throw
`"Invalid variant size"` when it exceeds the remaining bytes, slice the
metadata out via `load_metadata` (whose `StatusOr` the C++ code
dereferences, so its failure is likewise a fatal exit, the second error
branch here), and take the rest of the declared extent as the value. -/
def variantValueOfSlice (slice : List Nat) : Except String VariantValue :=
  let variantSize := readLE slice 0 4
  if sizeSub4 slice.length < variantSize then .error "Invalid variant size"
  else
    match loadMetadata ((slice.drop 4).take variantSize) with
    | none => .error "load_metadata failed"
    | some md =>
      .ok ⟨md, (slice.drop (4 + md.length)).take (variantSize - md.length)⟩

/-- Modelled from the spec: the zero-copy Variant decoder view
(`formats/parquet/variant.h`, not in this source slice) — a pair of
borrowed byte slices, `metadata` shared by every nested access and
`value` changing per access (spec section 3). -/
structure Variant where
  metadata : List Nat
  value : List Nat
deriving DecidableEq, Repr

/-- The type discriminants of spec section 3 (`VariantType`), with a
catch-all for header bytes naming none of them. -/
inductive VariantType where
  | nullType
  | boolean
  | int8
  | int16
  | int32
  | int64
  | float
  | double
  | decimal4
  | decimal8
  | decimal16
  | date
  | binaryData
  | string
  | object
  | array
  | unknown
deriving DecidableEq, Repr

/-- Decoder and cast failures (spec section 7 error taxonomy). -/
inductive VErr where
  | typeMismatch
  | notFound
  | decodeError
  | notSupported
  | variantError
deriving DecidableEq, Repr

/-- Modelled from the spec: `Variant::type()` reads the leading header
byte of `value`: basic type in the low 2 bits (0 primitive, 1 short
string, 2 object, 3 array), and for primitives a sub-type tag in the
high 6 bits (spec sections 4.1 and 6). -/
def Variant.type (v : Variant) : VariantType :=
  let header := v.value.getD 0 0
  let basic := header % 4
  let info := header / 4
  if basic = 1 then .string
  else if basic = 2 then .object
  else if basic = 3 then .array
  else if info = 0 then .nullType
  else if info = 1 then .boolean
  else if info = 2 then .boolean
  else if info = 3 then .int8
  else if info = 4 then .int16
  else if info = 5 then .int32
  else if info = 6 then .int64
  else if info = 7 then .double
  else if info = 8 then .decimal4
  else if info = 9 then .decimal8
  else if info = 10 then .decimal16
  else if info = 11 then .date
  else if info = 14 then .float
  else if info = 15 then .binaryData
  else if info = 16 then .string
  else .unknown

/-- Modelled from the spec: `Variant::get_bool` — type-mismatch error
unless the value is a Boolean; the truth value is carried by the
sub-type tag (1 true, 2 false). -/
def Variant.getBool (v : Variant) : Except VErr Bool :=
  if v.type = .boolean then .ok (decide (v.value.getD 0 0 / 4 = 1))
  else .error .typeMismatch

/-- Two's-complement reading of a `w`-byte little-endian value. -/
def twosComplement (w : Nat) (n : Nat) : Int :=
  if n < 2 ^ (8 * w - 1) then (n : Int) else (n : Int) - 2 ^ (8 * w)

/-- Modelled from the spec: `Variant::get_int8` — fixed-width payload
right after the header byte, bounds-checked. -/
def Variant.getInt8 (v : Variant) : Except VErr Int :=
  if v.type = .int8 then
    if v.value.length < 2 then .error .decodeError
    else .ok (twosComplement 1 (readLE v.value 1 1))
  else .error .typeMismatch

/-- Modelled from the spec: `Variant::get_int16`. -/
def Variant.getInt16 (v : Variant) : Except VErr Int :=
  if v.type = .int16 then
    if v.value.length < 3 then .error .decodeError
    else .ok (twosComplement 2 (readLE v.value 1 2))
  else .error .typeMismatch

/-- Modelled from the spec: `Variant::get_int32`. -/
def Variant.getInt32 (v : Variant) : Except VErr Int :=
  if v.type = .int32 then
    if v.value.length < 5 then .error .decodeError
    else .ok (twosComplement 4 (readLE v.value 1 4))
  else .error .typeMismatch

/-- Modelled from the spec: `Variant::get_int64`. -/
def Variant.getInt64 (v : Variant) : Except VErr Int :=
  if v.type = .int64 then
    if v.value.length < 9 then .error .decodeError
    else .ok (twosComplement 8 (readLE v.value 1 8))
  else .error .typeMismatch

/-- Modelled from the spec: `Variant::get_string` — a short string
carries its length in the sub-type tag, a long string in a 4-byte
little-endian count after the header; both are bounds-checked. -/
def Variant.getString (v : Variant) : Except VErr (List Nat) :=
  let header := v.value.getD 0 0
  if header % 4 = 1 then
    let len := header / 4
    if v.value.length < 1 + len then .error .decodeError
    else .ok ((v.value.drop 1).take len)
  else if header % 4 = 0 ∧ header / 4 = 16 then
    let len := readLE v.value 1 4
    if v.value.length < 5 + len then .error .decodeError
    else .ok ((v.value.drop 5).take len)
  else .error .typeMismatch

/-- Modelled from the spec: `Variant::get_object_by_key` — valid only
for objects; decodes the field-id array and offset array from the
header's widths (offset width, id width, large flag), resolves each
field id through the metadata dictionary and looks the key up
(returning the first matching field: the spec's binary search on a
sorted dictionary and linear scan otherwise both return a matching
field, which on a duplicate-free dictionary is this one), `notFound`
when no field matches; the matched field's sub-value starts at its
offset into the values region, `metadata` shared unchanged. -/
def Variant.getObjectByKey (v : Variant) (key : List Nat) : Except VErr Variant :=
  if v.type ≠ .object then .error .typeMismatch
  else
    let info := v.value.getD 0 0 / 4
    let offSize := info % 4 + 1
    let idSize := info / 4 % 4 + 1
    let numWidth := if info / 16 % 2 = 1 then 4 else 1
    let num := readLE v.value 1 numWidth
    let idsStart := 1 + numWidth
    let offsetsStart := idsStart + num * idSize
    let valuesStart := offsetsStart + (num + 1) * offSize
    if v.value.length < valuesStart then .error .decodeError
    else
      match (List.range num).find? (fun i =>
          decide (metaKey v.metadata (readLE v.value (idsStart + i * idSize) idSize)
            = some key)) with
      | none => .error .notFound
      | some i =>
        let off := readLE v.value (offsetsStart + i * offSize) offSize
        if v.value.length < valuesStart + off then .error .decodeError
        else .ok ⟨v.metadata, v.value.drop (valuesStart + off)⟩

/-- Modelled from the spec: `Variant::get_element_at_index` — valid
only for arrays; `notFound` (never a panic) outside `[0, count)`; the
element starts at its offset into the values region. -/
def Variant.getElementAtIndex (v : Variant) (idx : Int) : Except VErr Variant :=
  if v.type ≠ .array then .error .typeMismatch
  else
    let info := v.value.getD 0 0 / 4
    let offSize := info % 4 + 1
    let numWidth := if info / 4 % 2 = 1 then 4 else 1
    let num := readLE v.value 1 numWidth
    if idx < 0 ∨ (num : Int) ≤ idx then .error .notFound
    else
      let offsetsStart := 1 + numWidth
      let valuesStart := offsetsStart + (num + 1) * offSize
      let off := readLE v.value (offsetsStart + idx.toNat * offSize) offSize
      if v.value.length < valuesStart + off then .error .decodeError
      else .ok ⟨v.metadata, v.value.drop (valuesStart + off)⟩

/-- Modelled from the spec: `Variant::to_value` repackages the view as
an owned `VariantValue` — metadata and value bytes, no coercion (spec
section 4.4 pass-through target). -/
def Variant.toValue (v : Variant) : VariantValue :=
  ⟨v.metadata, v.value⟩

/-- Byte encoding of a path-segment key for dictionary comparison.  The
embedding uses code points, which agree with the UTF-8 bytes the C++
code compares for the ASCII keys of the path grammar. -/
def encodeKey (key : List Char) : List Nat :=
  key.map Char.toNat

/-- Seek failures of `VariantPathParser::seek`
(`variant_path_parser.cpp`): one constructor per `VariantError` site,
carrying what the C++ message formats.  The C++ fallback for an unknown
segment subclass cannot arise from a closed two-variant union. -/
inductive SeekErr where
  | objectKeyNotFound (key : List Char)
  | arrayIndexOutOfBounds (index : Int)
deriving DecidableEq, Repr

/-- C++ `VariantPathParser::seek` (`variant_path_parser.cpp`): fold the
segment list over the root, `get_object_by_key` for an object
extraction and `get_element_at_index` for an array extraction, turning
the first failure into a `VariantError` immediately. -/
def seek (v : Variant) (segs : List VariantPath.Segment) : Except SeekErr Variant :=
  match segs with
  | [] => .ok v
  | .objectExtraction key :: rest =>
    match v.getObjectByKey (encodeKey key) with
    | .error _ => .error (.objectKeyNotFound key)
    | .ok v' => seek v' rest
  | .arrayExtraction idx :: rest =>
    match v.getElementAtIndex idx with
    | .error _ => .error (.arrayIndexOutOfBounds idx)
    | .ok v' => seek v' rest

/-- The output logical types `cast_variant_value_to` distinguishes:
boolean, the integer and floating-point family, the string family, the
Variant pass-through, and a representative unsupported type (JSON). -/
inductive LogicalType where
  | typeBoolean
  | typeTinyint
  | typeSmallint
  | typeInt
  | typeBigint
  | typeFloat
  | typeDouble
  | typeVarchar
  | typeVariant
  | typeJson
deriving DecidableEq, Repr

/-- Modelled from the spec: the `lt_is_arithmetic` trait
(`types/logical_type.h`, not in this source slice) holds for the
boolean, integer and floating-point families — it must admit
`TYPE_BOOLEAN`, or the boolean target could never reach its own cast
branch in `cast_variant_value_to`. -/
def ltIsArithmetic : LogicalType → Bool
  | .typeBoolean | .typeTinyint | .typeSmallint | .typeInt | .typeBigint
  | .typeFloat | .typeDouble => true
  | _ => false

/-- Modelled from the spec: the `lt_is_string` trait holds for the
string family. -/
def ltIsString : LogicalType → Bool
  | .typeVarchar => true
  | _ => false

/-- One appended output-column cell (`ColumnBuilder::append`); a row's
SQL null (`append_null`) is `none` at the use sites. -/
inductive CellVal where
  | boolVal (b : Bool)
  | numVal (i : Int)
  | strVal (s : List Nat)
  | variantVal (v : VariantValue)
deriving DecidableEq, Repr

/-- C++ `static_cast` to the target's representation: integer targets
wrap to their width; the floating-point targets keep the (at most
64-bit) integer value, whose rounding the claims never exercise. -/
def narrowCast (rt : LogicalType) (i : Int) : Int :=
  match rt with
  | .typeTinyint => (i + 2 ^ 7) % 2 ^ 8 - 2 ^ 7
  | .typeSmallint => (i + 2 ^ 15) % 2 ^ 16 - 2 ^ 15
  | .typeInt => (i + 2 ^ 31) % 2 ^ 32 - 2 ^ 31
  | .typeBigint => (i + 2 ^ 63) % 2 ^ 64 - 2 ^ 63
  | _ => i

/-- Modelled from the spec: `StringParser::string_to_int<int32_t>`
(not in this source slice) — an optional sign and at least one digit,
consuming the whole string, failing on overflow of `int32_t`. -/
def parseInt32 (s : List Nat) : Option Int :=
  let signed : Int × List Nat :=
    match s with
    | 43 :: rest => (1, rest)
    | 45 :: rest => (-1, rest)
    | _ => (1, s)
  if signed.2 = [] ∨ ¬ signed.2.all (fun b => 48 ≤ b && b ≤ 57) then none
  else
    let val := signed.1 * (signed.2.foldl (fun a b => a * 10 + ((b : Int) - 48)) 0)
    if -2147483648 ≤ val ∧ val ≤ 2147483647 then some val else none

/-- Modelled from the spec: `StringParser::string_to_bool` — the
boolean literals "true" and "false", case-insensitively. -/
def parseBoolLit (s : List Nat) : Option Bool :=
  let lower := s.map (fun b => if 65 ≤ b ∧ b ≤ 90 then b + 32 else b)
  if lower = [116, 114, 117, 101] then some true
  else if lower = [102, 97, 108, 115, 101] then some false
  else none

/-- C++ `cast_variant_to_bool` (`variant_converter.cpp`): a Null
variant appends the row's null; a Boolean appends its value; a String
is integer-parsed first (non-zero is true) and falls back to the
boolean literals; everything else (including a String whose payload
fails to decode) is a not-supported error. -/
def castVariantToBool (v : Variant) : Except VErr (Option CellVal) :=
  if v.type = .nullType then .ok none
  else if v.type = .boolean then
    match v.getBool with
    | .error e => .error e
    | .ok b => .ok (some (.boolVal b))
  else if v.type = .string then
    match v.getString with
    | .ok s =>
      match parseInt32 s with
      | some r => .ok (some (.boolVal (decide (r ≠ 0))))
      | none =>
        match parseBoolLit s with
        | some b => .ok (some (.boolVal b))
        | none => .error .variantError
    | .error _ => .error .notSupported
  else .error .notSupported

/-- C++ `cast_variant_to_arithmetic<ResultType>`
(`variant_converter.cpp`): switch on the variant's type — Null appends
the row's null, Boolean and the integer family convert numerically,
every other source is a not-supported error. -/
def castVariantToArithmetic (rt : LogicalType) (v : Variant) :
    Except VErr (Option CellVal) :=
  match v.type with
  | .nullType => .ok none
  | .boolean =>
    match v.getBool with
    | .error e => .error e
    | .ok b => .ok (some (.numVal (narrowCast rt (if b then 1 else 0))))
  | .int8 =>
    match v.getInt8 with
    | .error e => .error e
    | .ok i => .ok (some (.numVal (narrowCast rt i)))
  | .int16 =>
    match v.getInt16 with
    | .error e => .error e
    | .ok i => .ok (some (.numVal (narrowCast rt i)))
  | .int32 =>
    match v.getInt32 with
    | .error e => .error e
    | .ok i => .ok (some (.numVal (narrowCast rt i)))
  | .int64 =>
    match v.getInt64 with
    | .error e => .error e
    | .ok i => .ok (some (.numVal (narrowCast rt i)))
  | _ => .error .notSupported

/-- C++ `cast_variant_to_string` (`variant_converter.cpp`): Null
appends the row's null, a String passes its decoded text through, every
other type is rendered by `VariantUtil::variant_to_json` — an external
collaborator (spec section 1), taken here as the function argument
`toJson`. -/
def castVariantToString (v : Variant) (value : VariantValue)
    (toJson : VariantValue → Except VErr (List Nat)) : Except VErr (Option CellVal) :=
  match v.type with
  | .nullType => .ok none
  | .string =>
    match v.getString with
    | .error e => .error e
    | .ok s => .ok (some (.strVal s))
  | _ =>
    match toJson value with
    | .error e => .error e
    | .ok js => .ok (some (.strVal js))

/-- C++ `cast_variant_value_to<ResultType, AllowThrowException>`
(`variant_converter.cpp`): a target outside the arithmetic, string and
Variant families errors under the hard policy and appends the row's
null under the soft one; the Variant target appends the value itself
unchanged; otherwise the matching scalar cast runs over a view of the
value, and its failure errors under the hard policy and appends the
row's null under the soft one. -/
def castVariantValueTo (rt : LogicalType) (allowThrowException : Bool)
    (value : VariantValue) (toJson : VariantValue → Except VErr (List Nat)) :
    Except VErr (Option CellVal) :=
  if ltIsArithmetic rt = false ∧ ltIsString rt = false ∧ rt ≠ .typeVariant then
    if allowThrowException then .error .notSupported else .ok none
  else if rt = .typeVariant then .ok (some (.variantVal value))
  else
    let variant : Variant := ⟨value.metadata, value.value⟩
    let status :=
      if rt = .typeBoolean then castVariantToBool variant
      else if ltIsArithmetic rt then castVariantToArithmetic rt variant
      else castVariantToString variant value toJson
    match status with
    | .error _ => if allowThrowException then .error .variantError else .ok none
    | .ok cell => .ok cell

/-- One input row of `_do_variant_query`: a nullable Variant cell and a
nullable path-string cell. -/
structure Row where
  variantCell : Option VariantValue
  pathCell : Option (List Char)
deriving DecidableEq, Repr

/-- What `get_or_parse_variant_segments` leaves behind: the segments to
use (or the parse error), the state of the caller's scratch slot, and
whether `VariantPathParser::parse` ran — the observation the caching
claims are about. -/
structure GOPResult where
  result : Except VariantPath.ParseErr (List VariantPath.Segment)
  stored : List VariantPath.Segment
  parsed : Bool

/-- C++ `get_or_parse_variant_segments` (`variant_functions.cpp`): when
a fragment-local parsed path exists, return it and read nothing else;
otherwise parse the row's path slice, storing the parsed segments in
the caller's scratch slot on success and leaving it untouched on
failure. -/
def getOrParseVariantSegments (fragState : Option (List VariantPath.Segment))
    (pathSlice : List Char) (stored : List VariantPath.Segment) : GOPResult :=
  match fragState with
  | some segs => ⟨.ok segs, stored, false⟩
  | none =>
    match VariantPath.parse pathSlice with
    | .error e => ⟨.error e, stored, true⟩
    | .ok segs => ⟨.ok segs, segs, true⟩

/-- One iteration of the row loop of
`VariantFunctions::_do_variant_query` (`variant_functions.cpp`): null
variant or null path appends the row's null; a path-resolution failure,
an empty variant, a seek failure and a cast failure each append the
row's null; otherwise the sought sub-variant is repackaged (Variant
target) or cast (any other target, hard policy with the failure caught
into the row's null).  Returns the appended cell and the scratch slot
for the next row. -/
def variantQueryRow (rt : LogicalType) (toJson : VariantValue → Except VErr (List Nat))
    (fragState : Option (List VariantPath.Segment)) (row : Row)
    (stored : List VariantPath.Segment) : Option CellVal × List VariantPath.Segment :=
  if row.variantCell.isNone ∨ row.pathCell.isNone then (none, stored)
  else
    let gop := getOrParseVariantSegments fragState (row.pathCell.getD []) stored
    match gop.result with
    | .error _ => (none, gop.stored)
    | .ok segs =>
      let vv := row.variantCell.getD ⟨[], []⟩
      if vv.metadata = [] ∧ vv.value = [] then (none, gop.stored)
      else
        match seek ⟨vv.metadata, vv.value⟩ segs with
        | .error _ => (none, gop.stored)
        | .ok res =>
          if rt = .typeVariant then (some (.variantVal res.toValue), gop.stored)
          else
            match castVariantValueTo rt true res.toValue toJson with
            | .error _ => (none, gop.stored)
            | .ok cell => (cell, gop.stored)

/-- C++ `VariantFunctions::_do_variant_query` row loop
(`variant_functions.cpp`): process the rows in order, threading the
scratch `stored_path` slot, appending exactly one output cell per row. -/
def doVariantQuery (rt : LogicalType) (toJson : VariantValue → Except VErr (List Nat))
    (fragState : Option (List VariantPath.Segment)) (rows : List Row)
    (stored : List VariantPath.Segment) : List (Option CellVal) :=
  match rows with
  | [] => []
  | r :: rest =>
    let step := variantQueryRow rt toJson fragState r stored
    step.1 :: doVariantQuery rt toJson fragState rest step.2

/-! Supporting lemmas. -/

open VariantPath

/-- A little-endian read within the left part of an append ignores the
right part. -/
theorem readLE_append (l l2 : List Nat) :
    ∀ (w off : Nat), off + w ≤ l.length → readLE (l ++ l2) off w = readLE l off w := by
  intro w
  induction w with
  | zero => intro off h; rfl
  | succ w ih =>
    intro off h
    simp only [readLE]
    rw [List.getD_append _ _ _ _ (by omega), ih (off + 1) (by omega)]

/-- Reading back the 4 little-endian bytes of a `uint32_t` value. -/
theorem readLE_toLE32 (n : Nat) (rest : List Nat) (h : n < 4294967296) :
    readLE (toLE32 n ++ rest) 0 4 = n := by
  have e : readLE (toLE32 n ++ rest) 0 4
      = n % 256 + 256 * (n / 256 % 256 + 256 * (n / 65536 % 256
        + 256 * (n / 16777216 % 256 + 256 * 0))) := rfl
  rw [e]
  omega

/-- `parseNumberAux` consumes exactly a leading digit run when what
follows it is not a digit. -/
theorem parseNumberAux_digits (ds tail0 : List Char)
    (hds : ∀ c ∈ ds, isDigit c = true)
    (htail : ∀ c, tail0.head? = some c → isDigit c = false) :
    ∀ pos, parseNumberAux (ds ++ tail0) pos = (ds, ⟨tail0, pos + ds.length⟩) := by
  induction ds with
  | nil =>
    intro pos
    cases tail0 with
    | nil => rfl
    | cons c t =>
      have hc := htail c rfl
      simp [parseNumberAux, hc]
  | cons c ds ih =>
    intro pos
    have hc := hds c (List.mem_cons_self c ds)
    have ih2 := ih (fun x hx => hds x (List.mem_cons_of_mem c hx)) (pos + 1)
    simp only [List.cons_append, parseNumberAux, hc, if_true, List.append_eq, ih2]
    have hlen : (c :: ds).length = ds.length + 1 := by simp
    rw [hlen]
    have harith : pos + 1 + ds.length = pos + (ds.length + 1) := by omega
    rw [harith]

/-- The fuel-indexed segment loop halts only at the end of the input. -/
theorem parseSegmentsFuel_consumes :
    ∀ (fuel : Nat) (s : PState) (segs : List Segment) (send : PState),
      parseSegmentsFuel fuel s = .ok (segs, send) → send.rest = [] := by
  intro fuel
  induction fuel with
  | zero => intro s segs send h; exact absurd h (by simp [parseSegmentsFuel])
  | succ fuel ih =>
    intro s segs send h
    simp only [parseSegmentsFuel] at h
    by_cases hempty : s.rest = []
    · rw [if_pos hempty] at h
      simp only [Except.ok.injEq, Prod.mk.injEq] at h
      rw [← h.2]
      exact hempty
    · rw [if_neg hempty] at h
      cases hseg : parseSegment s with
      | error e =>
        simp only [hseg] at h
        exact Except.noConfusion h
      | ok r =>
        obtain ⟨seg, s'⟩ := r
        simp only [hseg] at h
        cases hrec : parseSegmentsFuel fuel s' with
        | error e =>
          simp only [hrec] at h
          exact Except.noConfusion h
        | ok r2 =>
          obtain ⟨segs2, send2⟩ := r2
          simp only [hrec, Except.ok.injEq, Prod.mk.injEq] at h
          rw [← h.2]
          exact ih s' segs2 send2 hrec

/-- `parseSegments` (the C++ `while (!is_at_end())` loop) succeeds only
with the entire input consumed. -/
theorem parseSegments_consumes {s : PState} {segs : List Segment}
    {send : PState} (h : parseSegments s = .ok (segs, send)) :
    send.rest = [] := by
  have heq := parseSegmentsFuel_eq (s.rest.length + 1) s (by omega)
  exact parseSegmentsFuel_consumes (s.rest.length + 1) s segs send (heq.trans h)

/-- The offset width only reads the header byte, so appending bytes
after a nonempty metadata buffer leaves it unchanged. -/
theorem metaOffsetSize_append (m w : List Nat) (h : 1 ≤ m.length) :
    metaOffsetSize (m ++ w) = metaOffsetSize m := by
  unfold metaOffsetSize
  rw [List.getD_append _ _ _ _ (by omega)]

/-- A well-formed metadata buffer declares the same extent with
anything appended after it: all three header reads stay inside it. -/
theorem metaDeclaredSize_append (m w : List Nat) (hwf : wellFormedMetadata m) :
    metaDeclaredSize (m ++ w) = metaDeclaredSize m := by
  have hos1 : 1 ≤ metaOffsetSize m := Nat.le_add_left 1 _
  have hmul : metaOffsetSize m * (2 + metaDictSize m)
      = metaOffsetSize m + metaOffsetSize m + metaOffsetSize m * metaDictSize m := by ring
  have hlen : m.length = 1 + metaOffsetSize m * (2 + metaDictSize m)
      + readLE m (1 + metaOffsetSize m * (1 + metaDictSize m)) (metaOffsetSize m) := hwf
  have h1 : 1 ≤ m.length := by omega
  have hos := metaOffsetSize_append m w h1
  have hds : metaDictSize (m ++ w) = metaDictSize m := by
    unfold metaDictSize
    rw [hos, readLE_append m w _ _ (by omega)]
  have hmul2 : metaOffsetSize m * (2 + metaDictSize m)
      = metaOffsetSize m * (1 + metaDictSize m) + metaOffsetSize m := by ring
  unfold metaDeclaredSize
  rw [hos, hds, readLE_append m w _ _ (by omega)]

/-- `load_metadata` on a well-formed metadata buffer followed by
anything returns exactly the metadata buffer. -/
theorem loadMetadata_append (m w : List Nat) (hwf : wellFormedMetadata m) :
    loadMetadata (m ++ w) = some m := by
  have hdecl := metaDeclaredSize_append m w hwf
  unfold loadMetadata
  rw [hdecl, ← hwf]
  rw [if_neg (by rw [List.length_append]; omega)]
  rw [List.take_left]

/-- The segments-or-error component of `get_or_parse_variant_segments`
does not depend on the caller's scratch slot. -/
theorem getOrParse_result_stored_indep
    (fs : Option (List Segment)) (p : List Char) (s : List Segment) :
    (getOrParseVariantSegments fs p s).result = (getOrParseVariantSegments fs p []).result := by
  cases fs with
  | some segs => rfl
  | none =>
    simp only [getOrParseVariantSegments]
    cases VariantPath.parse p <;> rfl

/-- The output cell of one row of `_do_variant_query` does not depend
on the scratch slot threaded between rows. -/
theorem variantQueryRow_fst_stored (rt : LogicalType)
    (tj : VariantValue → Except VErr (List Nat)) (fs : Option (List Segment))
    (row : Row) (s1 s2 : List Segment) :
    (variantQueryRow rt tj fs row s1).1 = (variantQueryRow rt tj fs row s2).1 := by
  unfold variantQueryRow
  by_cases hnull : row.variantCell.isNone ∨ row.pathCell.isNone
  · rw [if_pos hnull, if_pos hnull]
  · rw [if_neg hnull, if_neg hnull]
    cases hr1 : (getOrParseVariantSegments fs (row.pathCell.getD []) s1).result with
    | error e =>
      have hr2 : (getOrParseVariantSegments fs (row.pathCell.getD []) s2).result = .error e := by
        rw [getOrParse_result_stored_indep fs (row.pathCell.getD []) s2,
          ← getOrParse_result_stored_indep fs (row.pathCell.getD []) s1, hr1]
      simp only [hr1, hr2]
    | ok segs =>
      have hr2 : (getOrParseVariantSegments fs (row.pathCell.getD []) s2).result = .ok segs := by
        rw [getOrParse_result_stored_indep fs (row.pathCell.getD []) s2,
          ← getOrParse_result_stored_indep fs (row.pathCell.getD []) s1, hr1]
      simp only [hr1, hr2]
      by_cases hvv : (row.variantCell.getD ⟨[], []⟩).metadata = []
          ∧ (row.variantCell.getD ⟨[], []⟩).value = []
      · rw [if_pos hvv, if_pos hvv]
      · rw [if_neg hvv, if_neg hvv]
        cases hseek : seek ⟨(row.variantCell.getD ⟨[], []⟩).metadata,
            (row.variantCell.getD ⟨[], []⟩).value⟩ segs with
        | error e2 => simp only [hseek]
        | ok res =>
          simp only [hseek]
          by_cases hrt : rt = .typeVariant
          · rw [if_pos hrt, if_pos hrt]
          · rw [if_neg hrt, if_neg hrt]
            cases hcast : castVariantValueTo rt true res.toValue tj with
            | error e3 => simp only [hcast]
            | ok cell => simp only [hcast]

/-- The batch loop is the per-row function mapped over the rows: no row
aborts it, and each output cell comes from its own row alone. -/
theorem doVariantQuery_eq_map (rt : LogicalType)
    (tj : VariantValue → Except VErr (List Nat)) (fs : Option (List Segment))
    (rows : List Row) (stored : List Segment) :
    doVariantQuery rt tj fs rows stored
      = rows.map (fun r => (variantQueryRow rt tj fs r []).1) := by
  induction rows generalizing stored with
  | nil => rfl
  | cons r rest ih =>
    simp only [doVariantQuery, List.map_cons]
    rw [variantQueryRow_fst_stored rt tj fs r stored [], ih]

/-! The claims. -/

/-- Claim C2: for every Variant root and every parsed segment sequence,
`seek` folds over the segments in order, calling `get_object_by_key`
for an object extraction and `get_element_at_index` for an array
extraction, returns an error as soon as the first lookup fails (no
later segment is applied), and returns the root unchanged for the empty
sequence. -/
theorem seek_folds_in_order_and_shortcircuits :
    (∀ v : Variant, seek v [] = .ok v) ∧
    (∀ (v : Variant) (key : List Char) (rest : List Segment),
      seek v (.objectExtraction key :: rest) =
        match v.getObjectByKey (encodeKey key) with
        | .ok v2 => seek v2 rest
        | .error _ => .error (.objectKeyNotFound key)) ∧
    (∀ (v : Variant) (idx : Int) (rest : List Segment),
      seek v (.arrayExtraction idx :: rest) =
        match v.getElementAtIndex idx with
        | .ok v2 => seek v2 rest
        | .error _ => .error (.arrayIndexOutOfBounds idx)) := by
  refine ⟨fun v => rfl, fun v key rest => ?_, fun v idx rest => ?_⟩
  · cases h : v.getObjectByKey (encodeKey key) <;> simp [seek, h]
  · cases h : v.getElementAtIndex idx <;> simp [seek, h]

/-- Claim C3: at a `'['` the parser attempts the array-index production
first; exactly when that fails, the quoted-key production is attempted
from the same saved state (the C++ cursor rewound to the `'['`); the
quoted-key production is never attempted before the array-index one,
and when both fail the segment fails with a position-annotated error
carrying the saved position. -/
theorem parseSegment_bracket_backtracking (s : PState) (h : peek s = '[') :
    parseSegment s =
      match parseArrayIndex s with
      | .ok r => .ok r
      | .error _ =>
        match parseQuotedKey s with
        | .ok r => .ok r
        | .error _ => .error (.failedSegment s.pos) := by
  have hne : s.rest ≠ [] := by
    intro hc
    unfold peek at h
    rw [hc] at h
    exact absurd h (by decide)
  have hend : isAtEnd s = false := by
    unfold isAtEnd
    cases hr : s.rest with
    | nil => exact absurd hr hne
    | cons c t => rfl
  have hdot : ¬ peek s = '.' := by
    rw [h]
    decide
  unfold parseSegment
  rw [if_neg (by rw [hend]; decide), if_neg hdot, if_pos h]

/-- Claim C3 witness: at the concrete bracket segment between quotes,
the backtracking equation holds with the saved position 0. -/
theorem parseSegment_bracket_backtracking_witness :
    peek ⟨['[', '\'', 'k', '\'', ']'], 0⟩ = '[' ∧
    parseSegment ⟨['[', '\'', 'k', '\'', ']'], 0⟩ =
      (match parseArrayIndex ⟨['[', '\'', 'k', '\'', ']'], 0⟩ with
       | .ok r => .ok r
       | .error _ =>
         match parseQuotedKey ⟨['[', '\'', 'k', '\'', ']'], 0⟩ with
         | .ok r => .ok r
         | .error _ => .error (.failedSegment 0)) :=
  ⟨rfl, parseSegment_bracket_backtracking ⟨['[', '\'', 'k', '\'', ']'], 0⟩ rfl⟩

/-- Claim C6 counterexample: with no fragment-constant parsed path, the
second resolution of the very same path string parses again — there is
no cache keyed by the path string whose hit could be reused. -/
theorem second_identical_path_still_parses :
    (getOrParseVariantSegments none ['$', '.', 'a']
      (getOrParseVariantSegments none ['$', '.', 'a'] []).stored).parsed = true := by
  simp only [getOrParseVariantSegments]
  cases hp : VariantPath.parse ['$', '.', 'a'] <;> simp [hp]

/-- Claim C6 as amended: when no fragment-constant parsed path exists,
every per-row resolution parses the path string anew — the result is
always exactly `VariantPathParser::parse` of the row's path, the
scratch slot receives the fresh segments on success and keeps its old
content on failure, and no per-path-string cache is consulted. -/
theorem per_row_resolution_always_reparses :
    ∀ (path : List Char) (stored : List Segment),
      (getOrParseVariantSegments none path stored).parsed = true ∧
      (getOrParseVariantSegments none path stored).result = VariantPath.parse path ∧
      (getOrParseVariantSegments none path stored).stored =
        (match VariantPath.parse path with
         | .ok segs => segs
         | .error _ => stored) := by
  intro path stored
  simp only [getOrParseVariantSegments]
  cases VariantPath.parse path <;> simp

/-- Claim C7 counterexample: a Variant whose type is Null, cast to the
Variant pass-through target, is appended as a value — the output cell
is not null — under either policy. -/
theorem cast_null_variant_to_variant_keeps_value :
    Variant.type ⟨[1, 0, 0], [0]⟩ = .nullType ∧
    castVariantValueTo .typeVariant true ⟨[1, 0, 0], [0]⟩ (fun _ => .ok [])
      = .ok (some (.variantVal ⟨[1, 0, 0], [0]⟩)) ∧
    some (CellVal.variantVal ⟨[1, 0, 0], [0]⟩) ≠ (none : Option CellVal) :=
  ⟨rfl, rfl, by decide⟩

/-- Claim C7 as amended: casting a Variant whose type is Null to any
boolean, arithmetic or string target appends the row's null, under both
the soft and the hard failure policy. -/
theorem cast_null_variant_scalar_targets_yield_null :
    ∀ (rt : LogicalType) (policy : Bool) (v : VariantValue)
      (tj : VariantValue → Except VErr (List Nat)),
      (ltIsArithmetic rt || ltIsString rt) = true →
      Variant.type ⟨v.metadata, v.value⟩ = .nullType →
      castVariantValueTo rt policy v tj = .ok none := by
  intro rt policy v tj hsupp htype
  cases rt <;> simp_all [castVariantValueTo, castVariantToBool, castVariantToArithmetic,
    castVariantToString, ltIsArithmetic, ltIsString]

/-- Claim C7 witness: the boolean target under the hard policy on a
concrete Null variant appends the row's null. -/
theorem cast_null_variant_scalar_targets_yield_null_witness :
    castVariantValueTo .typeBoolean true ⟨[1, 0, 0], [0]⟩ (fun _ => .ok []) = .ok none :=
  cast_null_variant_scalar_targets_yield_null .typeBoolean true ⟨[1, 0, 0], [0]⟩
    (fun _ => .ok []) (by decide) rfl

/-- Claim C10: when a fragment-local parsed path exists, the row's path
text has no influence on the output cell: two rows with the same
Variant cell and any non-null path texts produce the same output,
because `get_or_parse_variant_segments` returns the cached segments
without reading the row's path slice. -/
theorem constant_path_makes_row_path_irrelevant :
    ∀ (segs : List Segment) (rt : LogicalType)
      (tj : VariantValue → Except VErr (List Nat)) (v : Option VariantValue)
      (p1 p2 : Option (List Char)) (s1 s2 : List Segment),
      p1.isSome = true → p2.isSome = true →
      (variantQueryRow rt tj (some segs) ⟨v, p1⟩ s1).1
        = (variantQueryRow rt tj (some segs) ⟨v, p2⟩ s2).1 := by
  intro segs rt tj v p1 p2 s1 s2 hp1 hp2
  obtain ⟨x1, hx1⟩ := Option.isSome_iff_exists.mp hp1
  obtain ⟨x2, hx2⟩ := Option.isSome_iff_exists.mp hp2
  subst hx1
  subst hx2
  rw [variantQueryRow_fst_stored rt tj (some segs) ⟨v, some x1⟩ s1 [],
    variantQueryRow_fst_stored rt tj (some segs) ⟨v, some x2⟩ s2 []]
  cases v with
  | none => rfl
  | some vv =>
    simp only [variantQueryRow, getOrParseVariantSegments]
    simp

/-- Claim C1 counterexample: the 4-byte prefix is the combined
metadata+value size, not the metadata length.  Deserializing the
metadata-length-prefixed buffer the claim describes loses the value
bytes, while deserializing the combined-size-prefixed buffer recovers
metadata and value exactly. -/
theorem metadata_length_prefix_loses_value_bytes :
    variantValueOfSlice (specMetadataLengthForm ⟨[1, 0, 0], [12, 1]⟩)
        = .ok ⟨[1, 0, 0], []⟩ ∧
    (⟨[1, 0, 0], []⟩ : VariantValue) ≠ ⟨[1, 0, 0], [12, 1]⟩ ∧
    variantValueOfSlice (VariantValue.serialize ⟨[1, 0, 0], [12, 1]⟩)
        = .ok ⟨[1, 0, 0], [12, 1]⟩ :=
  ⟨rfl, by decide, rfl⟩

/-- Claim C1 as amended: the owned serialized form is a 4-byte
little-endian prefix holding the combined metadata+value size, followed
by the metadata bytes and then the value bytes (the metadata's own
header, not the prefix, delimits the metadata); and the `Slice`
constructor rejects every buffer whose declared combined size exceeds
the buffer's size less the 4-byte prefix. -/
theorem serialized_form_and_size_rejection :
    (∀ v : VariantValue,
      v.serialize = toLE32 (v.metadata.length + v.value.length) ++ v.metadata ++ v.value) ∧
    (∀ slice : List Nat, 4 ≤ slice.length → slice.length - 4 < readLE slice 0 4 →
      variantValueOfSlice slice = .error "Invalid variant size") := by
  refine ⟨fun v => rfl, fun slice h4 hgt => ?_⟩
  unfold variantValueOfSlice
  have hs : sizeSub4 slice.length = slice.length - 4 := by
    unfold sizeSub4
    rw [if_pos h4]
  rw [hs, if_pos hgt]

/-- Claim C1 witness: a concrete 6-byte buffer declaring a combined
size of 9 is rejected, and a concrete serialization shows the prefix
layout. -/
theorem serialized_form_and_size_rejection_witness :
    4 ≤ ([9, 0, 0, 0, 1, 1] : List Nat).length ∧
    ([9, 0, 0, 0, 1, 1] : List Nat).length - 4 < readLE [9, 0, 0, 0, 1, 1] 0 4 ∧
    variantValueOfSlice [9, 0, 0, 0, 1, 1] = .error "Invalid variant size" ∧
    VariantValue.serialize ⟨[1, 0, 0], [12, 1]⟩ = toLE32 5 ++ [1, 0, 0] ++ [12, 1] :=
  ⟨by decide, by decide,
   serialized_form_and_size_rejection.2 [9, 0, 0, 0, 1, 1] (by decide) (by decide),
   serialized_form_and_size_rejection.1 ⟨[1, 0, 0], [12, 1]⟩⟩

/-- Claim C4: parse succeeds only when the input starts with the root
anchor `'$'` (the empty input and inputs with any other first character
fail with the root-anchor error), and every successful parse consumed
the entire input: the segment loop ends with nothing unread, so
trailing characters can never yield a partial success. -/
theorem parse_requires_root_and_consumes_all :
    (∀ input : List Char, input.head? ≠ some '$' →
      VariantPath.parse input = .error .pathMustStartWithDollar) ∧
    (∀ (input : List Char) (segs : List Segment),
      VariantPath.parse input = .ok segs →
      input.head? = some '$' ∧
      ∃ send : PState, parseSegments ⟨input.tail, 1⟩ = .ok (segs, send) ∧ send.rest = []) := by
  constructor
  · intro input h
    unfold parse
    cases input with
    | nil => rfl
    | cons c t =>
      have hc : c ≠ '$' := fun hcc => h (by rw [hcc]; rfl)
      simp [matchChar, hc]
  · intro input segs h
    unfold parse at h
    cases input with
    | nil => simp [matchChar] at h
    | cons c t =>
      by_cases hc : c = '$'
      · subst hc
        have hm : matchChar ⟨'$' :: t, 0⟩ '$' = (true, ⟨t, 1⟩) := by simp [matchChar]
        simp only [hm] at h
        rw [if_neg (by decide)] at h
        refine ⟨rfl, ?_⟩
        cases hps : parseSegments ⟨t, 1⟩ with
        | error e =>
          simp only [hps] at h
          exact Except.noConfusion h
        | ok r =>
          obtain ⟨segs2, send⟩ := r
          simp only [hps, Except.ok.injEq] at h
          subst h
          exact ⟨send, hps, parseSegments_consumes hps⟩
      · have hm : (matchChar ⟨c :: t, 0⟩ '$').1 = false := by simp [matchChar, hc]
        simp [hm] at h

/-- Claim C4 witness: a non-anchored input fails with the root-anchor
error, and the successful parse of the bare anchor consumed everything. -/
theorem parse_requires_root_and_consumes_all_witness :
    VariantPath.parse ['x'] = .error .pathMustStartWithDollar ∧
    (['$'].head? = some '$' ∧
      ∃ send : PState, parseSegments ⟨['$'].tail, 1⟩ = .ok ([], send) ∧ send.rest = []) :=
  ⟨parse_requires_root_and_consumes_all.1 ['x'] (by decide),
   parse_requires_root_and_consumes_all.2 ['$'] [] (by rw [parse_eq_parseFuel]; decide)⟩

/-- Claim C9 counterexample: the bracketed digit run 2147483648 (one
above `INT_MAX`) does not parse into an ArrayExtraction — `std::stoi`
overflows, `parse_array_index` reports an invalid index, and the whole
parse fails. -/
theorem overflowing_bracketed_index_fails_to_parse :
    VariantPath.parse
        ('$' :: '[' :: (['2', '1', '4', '7', '4', '8', '3', '6', '4', '8'] ++ [']']))
        = .error (.failedSegment 1) ∧
    parseArrayIndex ⟨'[' :: (['2', '1', '4', '7', '4', '8', '3', '6', '4', '8'] ++ [']']), 1⟩
        = .error (.invalidArrayIndex ['2', '1', '4', '7', '4', '8', '3', '6', '4', '8'] 13) := by
  constructor
  · rw [parse_eq_parseFuel]
    decide
  · decide

/-- Claim C9 as amended: every bracketed segment of one or more digits
followed by `']'` whose denoted value fits a C++ `int` (at most
2147483647) parses into an ArrayExtraction carrying exactly that
value. -/
theorem bracketed_digit_run_parses_as_array_index :
    ∀ ds : List Char, ds ≠ [] → (∀ c ∈ ds, isDigit c = true) →
      digitsToNat ds ≤ 2147483647 →
      VariantPath.parse ('$' :: '[' :: (ds ++ [']']))
        = .ok [.arrayExtraction (Int.ofNat (digitsToNat ds))] := by
  intro ds hne hds hle
  have hnum : parseNumber ⟨ds ++ [']'], 2⟩ = (ds, ⟨[']'], 2 + ds.length⟩) := by
    unfold parseNumber
    exact parseNumberAux_digits ds [']'] hds
      (by
        intro c hc
        simp at hc
        subst hc
        decide) 2
  have harr : parseArrayIndex ⟨'[' :: (ds ++ [']']), 1⟩
      = .ok (.arrayExtraction (Int.ofNat (digitsToNat ds)), ⟨[], 2 + ds.length + 1⟩) := by
    have hm1 : matchChar ⟨'[' :: (ds ++ [']']), 1⟩ '[' = (true, ⟨ds ++ [']'], 2⟩) := by
      simp [matchChar]
    have hm2 : matchChar ⟨[']'], 2 + ds.length⟩ ']' = (true, ⟨[], 2 + ds.length + 1⟩) := by
      simp [matchChar]
    simp only [parseArrayIndex, hm1, hnum, hm2]
    simp [hne, Nat.not_lt.mpr hle]
  have hend : isAtEnd ⟨'[' :: (ds ++ [']']), 1⟩ = false := rfl
  have hpk : peek ⟨'[' :: (ds ++ [']']), 1⟩ = '[' := rfl
  have hseg : parseSegment ⟨'[' :: (ds ++ [']']), 1⟩
      = .ok (.arrayExtraction (Int.ofNat (digitsToNat ds)), ⟨[], 2 + ds.length + 1⟩) := by
    unfold parseSegment
    rw [if_neg (by rw [hend]; decide), if_neg (by rw [hpk]; decide), if_pos hpk]
    simp only [harr]
  have hsegs : parseSegments ⟨'[' :: (ds ++ [']']), 1⟩
      = .ok ([.arrayExtraction (Int.ofNat (digitsToNat ds))], ⟨[], 2 + ds.length + 1⟩) := by
    rw [← parseSegmentsFuel_eq (('[' :: (ds ++ [']'])).length + 1) _
      (by
        show ('[' :: (ds ++ [']'])).length < ('[' :: (ds ++ [']'])).length + 1
        omega)]
    simp [parseSegmentsFuel, hseg]
  have hm : matchChar ⟨'$' :: '[' :: (ds ++ [']']), 0⟩ '$'
      = (true, ⟨'[' :: (ds ++ [']']), 1⟩) := by
    simp [matchChar]
  unfold parse
  simp [hm, hsegs]

/-- Claim C9 witness: the concrete in-range digit run 42 parses into
ArrayExtraction 42. -/
theorem bracketed_digit_run_parses_witness :
    (['4', '2'] : List Char) ≠ [] ∧
    VariantPath.parse ('$' :: '[' :: (['4', '2'] ++ [']'])) = .ok [.arrayExtraction 42] :=
  ⟨by decide,
   bracketed_digit_run_parses_as_array_index ['4', '2'] (by decide) (by decide) (by decide)⟩

/-- Claim C5: every row whose Variant cell or path cell is null gets a
null output; a path parse failure, a seek failure and a cast failure
each degrade only that row's output to null; and no per-row failure
aborts the batch — the output is exactly the per-row function mapped
over the rows, one cell per row. -/
theorem variant_query_row_failures_degrade_to_null :
    ∀ (rt : LogicalType) (tj : VariantValue → Except VErr (List Nat))
      (fs : Option (List Segment)) (rows : List Row) (stored : List Segment),
      doVariantQuery rt tj fs rows stored
        = rows.map (fun r => (variantQueryRow rt tj fs r []).1) ∧
      (doVariantQuery rt tj fs rows stored).length = rows.length ∧
      ∀ (row : Row) (s : List Segment),
        ((row.variantCell = none ∨ row.pathCell = none) →
          (variantQueryRow rt tj fs row s).1 = none) ∧
        (∀ p e, row.pathCell = some p →
          (getOrParseVariantSegments fs p s).result = .error e →
          (variantQueryRow rt tj fs row s).1 = none) ∧
        (∀ p vv segs e, row.pathCell = some p → row.variantCell = some vv →
          (getOrParseVariantSegments fs p s).result = .ok segs →
          seek ⟨vv.metadata, vv.value⟩ segs = .error e →
          (variantQueryRow rt tj fs row s).1 = none) ∧
        (∀ p vv segs res e, row.pathCell = some p → row.variantCell = some vv →
          (getOrParseVariantSegments fs p s).result = .ok segs →
          seek ⟨vv.metadata, vv.value⟩ segs = .ok res →
          rt ≠ .typeVariant →
          castVariantValueTo rt true res.toValue tj = .error e →
          (variantQueryRow rt tj fs row s).1 = none) := by
  intro rt tj fs rows stored
  refine ⟨doVariantQuery_eq_map rt tj fs rows stored, ?_, ?_⟩
  · rw [doVariantQuery_eq_map rt tj fs rows stored, List.length_map]
  intro row s
  refine ⟨?_, ?_, ?_, ?_⟩
  · intro h
    unfold variantQueryRow
    rw [if_pos (by cases h <;> simp [*])]
  · intro p e hp hr
    unfold variantQueryRow
    by_cases hnull : row.variantCell.isNone ∨ row.pathCell.isNone
    · rw [if_pos hnull]
    · rw [if_neg hnull]
      have hget : row.pathCell.getD [] = p := by rw [hp]; rfl
      rw [hget]
      simp only [hr]
  · intro p vv segs e hp hv hr hseek
    unfold variantQueryRow
    by_cases hnull : row.variantCell.isNone ∨ row.pathCell.isNone
    · rw [if_pos hnull]
    · rw [if_neg hnull]
      have hget : row.pathCell.getD [] = p := by rw [hp]; rfl
      have hgv : row.variantCell.getD ⟨[], []⟩ = vv := by rw [hv]; rfl
      rw [hget]
      simp only [hr, hgv]
      by_cases hvv : vv.metadata = [] ∧ vv.value = []
      · rw [if_pos hvv]
      · rw [if_neg hvv]
        simp only [hseek]
  · intro p vv segs res e hp hv hr hseek hrt hcast
    unfold variantQueryRow
    by_cases hnull : row.variantCell.isNone ∨ row.pathCell.isNone
    · rw [if_pos hnull]
    · rw [if_neg hnull]
      have hget : row.pathCell.getD [] = p := by rw [hp]; rfl
      have hgv : row.variantCell.getD ⟨[], []⟩ = vv := by rw [hv]; rfl
      rw [hget]
      simp only [hr, hgv]
      by_cases hvv : vv.metadata = [] ∧ vv.value = []
      · rw [if_pos hvv]
      · rw [if_neg hvv]
        simp only [hseek]
        rw [if_neg hrt]
        simp only [hcast]

/-- Claim C5 witness: a single row with a null path cell yields the
null output and the batch output is exactly that one cell. -/
theorem variant_query_row_failures_witness :
    (variantQueryRow .typeVariant (fun _ => .ok []) none
        ⟨some ⟨[1, 0, 0], [12, 1]⟩, none⟩ []).1 = none ∧
    doVariantQuery .typeVariant (fun _ => .ok []) none
        [⟨some ⟨[1, 0, 0], [12, 1]⟩, none⟩] []
      = [(variantQueryRow .typeVariant (fun _ => .ok []) none
          ⟨some ⟨[1, 0, 0], [12, 1]⟩, none⟩ []).1] := by
  have h := variant_query_row_failures_degrade_to_null .typeVariant (fun _ => .ok []) none
    [⟨some ⟨[1, 0, 0], [12, 1]⟩, none⟩] []
  exact ⟨(h.2.2 ⟨some ⟨[1, 0, 0], [12, 1]⟩, none⟩ []).1 (Or.inr rfl), by rw [h.1]; rfl⟩

/-- Claim C8: deserializing the serialization of a VariantValue yields
it back — the same metadata bytes and the same value bytes — for every
VariantValue whose metadata satisfies the spec's metadata invariant
(deserialization re-derives the metadata/value split from the
metadata's own header) and whose combined size fits the 4-byte prefix. -/
theorem serialize_deserialize_roundtrip :
    ∀ v : VariantValue, wellFormedMetadata v.metadata →
      v.metadata.length + v.value.length < 4294967296 →
      variantValueOfSlice v.serialize = .ok v := by
  intro v hwf hsize
  obtain ⟨m, w⟩ := v
  simp only at hwf hsize
  unfold VariantValue.serialize variantValueOfSlice
  have hshape : toLE32 (m.length + w.length) ++ m ++ w
      = toLE32 (m.length + w.length) ++ (m ++ w) := by
    rw [List.append_assoc]
  rw [hshape]
  have hlen : (toLE32 (m.length + w.length) ++ (m ++ w)).length
      = 4 + (m.length + w.length) := by
    simp [toLE32]
    omega
  have hread : readLE (toLE32 (m.length + w.length) ++ (m ++ w)) 0 4 = m.length + w.length :=
    readLE_toLE32 (m.length + w.length) (m ++ w) hsize
  have hsub : sizeSub4 (toLE32 (m.length + w.length) ++ (m ++ w)).length
      = m.length + w.length := by
    unfold sizeSub4
    rw [hlen, if_pos (by omega)]
    omega
  rw [if_neg (by rw [hread, hsub]; omega)]
  have hd4 : (toLE32 (m.length + w.length) ++ (m ++ w)).drop 4 = m ++ w := by
    have : (4 : Nat) = (toLE32 (m.length + w.length)).length := by simp [toLE32]
    rw [this, List.drop_left]
  have htake : (m ++ w).take (readLE (toLE32 (m.length + w.length) ++ (m ++ w)) 0 4)
      = m ++ w := by
    rw [hread, ← List.length_append, List.take_length]
  rw [hd4, htake, loadMetadata_append m w hwf]
  dsimp only
  have hdrop2 : (toLE32 (m.length + w.length) ++ (m ++ w)).drop (4 + m.length) = w := by
    rw [← List.append_assoc]
    have : 4 + m.length = (toLE32 (m.length + w.length) ++ m).length := by
      simp [toLE32]
      omega
    rw [this, List.drop_left]
  rw [hdrop2, hread]
  have htake2 : w.take (m.length + w.length - m.length) = w := by
    have : m.length + w.length - m.length = w.length := by omega
    rw [this, List.take_length]
  rw [htake2]

/-- Claim C8 witness: a concrete VariantValue with the canonical empty
metadata dictionary round-trips. -/
theorem serialize_deserialize_roundtrip_witness :
    wellFormedMetadata [1, 0, 0] ∧
    variantValueOfSlice (VariantValue.serialize ⟨[1, 0, 0], [12, 1]⟩)
      = .ok ⟨[1, 0, 0], [12, 1]⟩ :=
  ⟨by rfl, serialize_deserialize_roundtrip ⟨[1, 0, 0], [12, 1]⟩ (by rfl) (by decide)⟩

/-- Claim C10 witness: two rows sharing a concrete Variant cell but
carrying different non-null path texts produce the same output under a
fragment-cached path. -/
theorem constant_path_makes_row_path_irrelevant_witness :
    (variantQueryRow .typeVariant (fun _ => .ok []) (some [])
        ⟨some ⟨[1, 0, 0], [12, 1]⟩, some ['$']⟩ []).1
      = (variantQueryRow .typeVariant (fun _ => .ok []) (some [])
        ⟨some ⟨[1, 0, 0], [12, 1]⟩, some ['a']⟩ []).1 :=
  constant_path_makes_row_path_irrelevant [] .typeVariant (fun _ => .ok [])
    (some ⟨[1, 0, 0], [12, 1]⟩) (some ['$']) (some ['a']) [] [] rfl rfl

end StarrocksVariant
